import Mathlib

/-!
Shallow embedding of the ClickHouse batching log hook from `src/app/main.go`
(`NewClickHouseHook`, `Fire`, `flush`, and the demo driver `main`).

The store (ClickHouse behind `database/sql`) is modelled as an oracle that
decides, for each low-level operation issued over the connection (transaction
begin, statement prepare, row exec, commit), whether that operation succeeds.
The hook state carries the full event trace and the batches of rows delivered
by successful commits, so claims about what the store receives are statements
about that trace.  Claims about successful batching runs take the
always-succeeding oracle as an explicit hypothesis; error-handling claims
quantify over arbitrary oracles.
-/

/-- Logrus severity levels (the `logrus.Level` enumeration). -/
inductive Level where
  | panicL
  | fatalL
  | errorL
  | warnL
  | infoL
  | debugL
  | traceL
deriving DecidableEq

/-- `logrus.Level.String()`: the text written into the level column. -/
def levelString : Level → String
  | Level.panicL => "panic"
  | Level.fatalL => "fatal"
  | Level.errorL => "error"
  | Level.warnL => "warning"
  | Level.infoL => "info"
  | Level.debugL => "debug"
  | Level.traceL => "trace"

/-- The fields of a `logrus.Entry` that the hook reads: capture time (opaque,
modelled as an integer tick), level, and message. -/
structure Entry where
  time : Int
  level : Level
  message : String
deriving DecidableEq

/-- One row as bound by `stmt.Exec(entry.Time, entry.Level.String(),
entry.Message)`: event time, level text, message text, in that column order. -/
structure Row where
  eventTime : Int
  levelText : String
  messageText : String
deriving DecidableEq

/-- Row built from an entry, exactly as the `stmt.Exec` call in `flush`. -/
def toRow (e : Entry) : Row := ⟨e.time, levelString e.level, e.message⟩

/-- The SQL text `flush` prepares. -/
def insertSQL : String :=
  "INSERT INTO tiered_logs (event_time, level, message) VALUES (?, ?, ?)"

/-- Low-level operations the hook can issue against the store.  `rollbackTx`
is included so that its absence from every trace is a provable statement:
the hook never issues it. -/
inductive Op where
  | beginTx
  | prepareStmt (sql : String)
  | execRow (r : Row)
  | commitTx
  | rollbackTx
deriving DecidableEq

/-- Errors `flush` can return, tagged by the operation that failed.  The Go
code returns the driver's error value verbatim; a tag stands for that value. -/
inductive Err where
  | beginErr
  | prepareErr
  | execErr
  | commitErr
deriving DecidableEq

/-- The store as an oracle: whether the k-th low-level operation issued over
the connection succeeds. -/
structure Store where
  ok : Nat → Bool

/-- A store on which every operation succeeds. -/
def alwaysOk : Store := ⟨fun _ => true⟩

/-- A store on which every operation fails (e.g. unreachable mid-run). -/
def neverOk : Store := ⟨fun _ => false⟩

/-- A store that serves the first 16 operations and then fails. -/
def failFrom16 : Store := ⟨fun n => decide (n < 16)⟩

/-- A store that fails the fourth operation (the commit of a one-row flush). -/
def commitFailStore : Store := ⟨fun n => decide (n < 3)⟩

/-- The `ClickHouseHook` state together with the observable history of its
store interaction: `events` is every issued operation with its outcome,
`committed` the batches of rows delivered by successful commits. -/
structure State where
  store : Store
  opCount : Nat
  events : List (Op × Bool)
  committed : List (List Row)
  entries : List Entry
  batchSize : Int

/-- Hook state as built by a successful `NewClickHouseHook`: empty buffer,
no store interaction yet. -/
def initState (store : Store) (batchSize : Int) : State :=
  ⟨store, 0, [], [], [], batchSize⟩

/-- Outcome the oracle assigns to the next low-level operation. -/
def opOk (s : State) : Bool := s.store.ok s.opCount

/-- Issue one low-level operation: consume one oracle step, record the event
with its outcome. -/
def record (s : State) (op : Op) : State :=
  { s with opCount := s.opCount + 1, events := s.events ++ [(op, opOk s)] }

/-- The `for _, entry := range hook.entries` loop of `flush`: exec one row at
a time, stopping at (and returning after) the first failed exec. -/
def execAll : State → List Row → State × Bool
  | s, [] => (s, true)
  | s, r :: rest =>
    if opOk s then execAll (record s (Op.execRow r)) rest
    else (record s (Op.execRow r), false)

/-- `flush` from `src/app/main.go`: begin a transaction, prepare the insert
statement, exec one row per buffered entry in buffer order, commit; clear the
buffer only after a successful commit; on any failure return that operation's
error with the buffer untouched.  No rollback is ever issued. -/
def flush (s : State) : State × Option Err :=
  let s1 := record s Op.beginTx
  if opOk s then
    let s2 := record s1 (Op.prepareStmt insertSQL)
    if opOk s1 then
      let rows := s.entries.map toRow
      let p := execAll s2 rows
      if p.2 then
        let s4 := record p.1 Op.commitTx
        if opOk p.1 then
          ({ s4 with committed := s4.committed ++ [rows], entries := [] }, none)
        else (s4, some Err.commitErr)
      else (p.1, some Err.execErr)
    else (s2, some Err.prepareErr)
  else (s1, some Err.beginErr)

/-- `Fire`: append the entry to the buffer, and if the buffer length has
reached `batchSize` (the check is `>=`), flush synchronously, returning
exactly the error `flush` produced. -/
def Fire (s : State) (e : Entry) : State × Option Err :=
  let s1 := { s with entries := s.entries ++ [e] }
  if s1.batchSize ≤ (s1.entries.length : Int) then flush s1 else (s1, none)

/-- A sequence of `Fire` calls.  The driver (logrus) ignores `Fire`'s return
value and keeps logging, as the demo loop in `main` does. -/
def runFires : State → List Entry → State
  | s, [] => s
  | s, e :: es => runFires (Fire s e).1 es

/-- How the environment behaves at construction: `sql.Open` fails (bad
DSN/driver), `db.Ping` fails (store unreachable or handshake failure), or
both succeed. -/
inductive ConnOutcome where
  | connOk
  | openFailed
  | pingFailed
deriving DecidableEq

/-- What the constructor does: return a hook, return an error to the caller,
or terminate the process (`log.Fatal`/`log.Fatalf` call `os.Exit`, which
never returns). -/
inductive ConstructResult where
  | hook (s : State)
  | errReturn
  | fatalExit

/-- `NewClickHouseHook`: an `sql.Open` error is returned to the caller;
a `Ping` failure is handled with `log.Fatalf` (the `clickhouse.Exception`
branch) or `log.Fatal` (the generic branch), terminating the process without
returning.  `batchSize` is stored without validation. -/
def NewClickHouseHook (conn : ConnOutcome) (store : Store) (batchSize : Int) :
    ConstructResult :=
  match conn with
  | ConnOutcome.openFailed => ConstructResult.errReturn
  | ConnOutcome.pingFailed => ConstructResult.fatalExit
  | ConnOutcome.connOk => ConstructResult.hook (initState store batchSize)

/-- The constant message the demo loop in `main` logs. -/
def infoMessage : String := "This is an info log entry"

/-- The entries the demo loop emits: info level, fixed message, one per
loop iteration (timestamps taken at runtime). -/
def mainEntries (times : List Int) : List Entry :=
  times.map (fun t => ⟨t, Level.infoL, infoMessage⟩)

/-- Observable outcome of one run of `main`: whether the deferred
`hook.db.Close()` ran, and whether the process left through
`log.Fatal`/`log.Fatalf` (which calls `os.Exit`, skipping deferred calls). -/
structure MainResult where
  dbClosed : Bool
  fatalExit : Bool
deriving DecidableEq

/-- `main` from `src/app/main.go`: construct the hook with batch size 5
(aborting via `log.Fatalf` on a constructor error, before the defer is
registered), defer `hook.db.Close()`, log the loop's entries, then flush once
more.  A failed final flush exits through `log.Fatalf`; `os.Exit` does not
run deferred functions, so the close is skipped on that path. -/
def mainRun (conn : ConnOutcome) (store : Store) (times : List Int) : MainResult :=
  match NewClickHouseHook conn store 5 with
  | ConstructResult.fatalExit => ⟨false, true⟩
  | ConstructResult.errReturn => ⟨false, true⟩
  | ConstructResult.hook s0 =>
    let s1 := runFires s0 (mainEntries times)
    match (flush s1).2 with
    | some _ => ⟨false, true⟩
    | none => ⟨true, false⟩

/-- Batches of rows the store actually received: a committed transaction that
delivered zero rows is not a received batch of records. -/
def receivedBatches (s : State) : List (List Row) :=
  s.committed.filter (fun b => !b.isEmpty)

/-- Reference chunking: starting from buffer `buf`, feed elements one at a
time; emit the buffer as a chunk whenever its length reaches `B`.  This
mirrors the flush points of a reliable run of `Fire`. -/
def chunkRun {α : Type} (B : Nat) : List α → List α → List (List α) × List α
  | buf, [] => ([], buf)
  | buf, a :: as =>
    if B ≤ buf.length + 1 then
      ((buf ++ [a]) :: (chunkRun B [] as).1, (chunkRun B [] as).2)
    else
      chunkRun B (buf ++ [a]) as

/-- Sample entries for concrete instantiations. -/
def e0 : Entry := ⟨0, Level.infoL, "alpha"⟩

/-- Second sample entry. -/
def e1 : Entry := ⟨1, Level.warnL, "beta"⟩

/-- Third sample entry. -/
def e2 : Entry := ⟨2, Level.errorL, "gamma"⟩

/-- The demo loop's ten timestamps. -/
def tenTimes : List Int := [0, 1, 2, 3, 4, 5, 6, 7, 8, 9]

/-- A hook state holding one buffered entry over a store whose commit fails. -/
def sCommitFail : State := ⟨commitFailStore, 0, [], [], [e0], 5⟩

/-- A hook state holding one buffered entry over the always-succeeding store. -/
def sOneEntry : State := ⟨alwaysOk, 0, [], [], [e0], 5⟩

/-- A hook state holding one buffered entry over the always-failing store. -/
def sBeginFail : State := ⟨neverOk, 0, [], [], [e0], 5⟩

/-! ## Basic facts about single operations -/

lemma opOk_alwaysOk (s : State) (h : s.store = alwaysOk) : opOk s = true := by
  simp [opOk, h, alwaysOk]

@[simp] lemma record_store (s : State) (op : Op) : (record s op).store = s.store := rfl

@[simp] lemma record_entries (s : State) (op : Op) : (record s op).entries = s.entries := rfl

@[simp] lemma record_committed (s : State) (op : Op) :
    (record s op).committed = s.committed := rfl

@[simp] lemma record_batchSize (s : State) (op : Op) :
    (record s op).batchSize = s.batchSize := rfl

@[simp] lemma record_events (s : State) (op : Op) :
    (record s op).events = s.events ++ [(op, opOk s)] := rfl

@[simp] lemma record_opCount (s : State) (op : Op) :
    (record s op).opCount = s.opCount + 1 := rfl

@[simp] lemma initState_store (st : Store) (b : Int) : (initState st b).store = st := rfl

@[simp] lemma initState_entries (st : Store) (b : Int) : (initState st b).entries = [] := rfl

@[simp] lemma initState_committed (st : Store) (b : Int) :
    (initState st b).committed = [] := rfl

@[simp] lemma initState_batchSize (st : Store) (b : Int) :
    (initState st b).batchSize = b := rfl

/-! ## The exec loop -/

lemma execAll_preserves : ∀ (rows : List Row) (s : State),
    (execAll s rows).1.store = s.store ∧
    (execAll s rows).1.entries = s.entries ∧
    (execAll s rows).1.committed = s.committed ∧
    (execAll s rows).1.batchSize = s.batchSize
  | [], s => by simp [execAll]
  | r :: rest, s => by
    by_cases h : opOk s
    · have ih := execAll_preserves rest (record s (Op.execRow r))
      simp only [record_store, record_entries, record_committed, record_batchSize] at ih
      simpa [execAll, h] using ih
    · simp [execAll, h]

lemma execAll_alwaysOk : ∀ (rows : List Row) (s : State), s.store = alwaysOk →
    (execAll s rows).2 = true ∧
    (execAll s rows).1.events = s.events ++ rows.map (fun r => (Op.execRow r, true))
  | [], s, _ => by simp [execAll]
  | r :: rest, s, h => by
    have hok : opOk s = true := opOk_alwaysOk s h
    have ih := execAll_alwaysOk rest (record s (Op.execRow r)) (by simp [h])
    simp only [record_events, hok] at ih
    simpa [execAll, hok] using ih

lemma execAll_true : ∀ (rows : List Row) (s : State), (execAll s rows).2 = true →
    (execAll s rows).1.events = s.events ++ rows.map (fun r => (Op.execRow r, true))
  | [], s, _ => by simp [execAll]
  | r :: rest, s, h => by
    by_cases hok : opOk s
    · have ih := execAll_true rest (record s (Op.execRow r))
        (by simpa [execAll, hok] using h)
      simp only [record_events, hok] at ih
      simpa [execAll, hok] using ih
    · simp [execAll, hok] at h

lemma execAll_events : ∀ (rows : List Row) (s : State),
    ∃ new, (execAll s rows).1.events = s.events ++ new ∧
      ∀ ev ∈ new, ∃ r, ev.1 = Op.execRow r
  | [], s => ⟨[], by simp [execAll], by simp⟩
  | r :: rest, s => by
    by_cases hok : opOk s
    · obtain ⟨new, hnew, hshape⟩ := execAll_events rest (record s (Op.execRow r))
      refine ⟨(Op.execRow r, opOk s) :: new, ?_, ?_⟩
      · simp only [record_events] at hnew
        simpa [execAll, hok] using hnew
      · intro ev hev
        rcases List.mem_cons.mp hev with h | h
        · exact ⟨r, by rw [h]⟩
        · exact hshape ev h
    · exact ⟨[(Op.execRow r, opOk s)], by simp [execAll, hok], by
        intro ev hev
        rcases List.mem_singleton.mp hev with h
        exact ⟨r, by rw [h]⟩⟩

/-! ## Flush characterizations -/

lemma flush_err_preserves (s : State) (err : Err) (h : (flush s).2 = some err) :
    (flush s).1.entries = s.entries ∧ (flush s).1.committed = s.committed ∧
    (flush s).1.store = s.store ∧ (flush s).1.batchSize = s.batchSize := by
  have hp := execAll_preserves (s.entries.map toRow)
      (record (record s Op.beginTx) (Op.prepareStmt insertSQL))
  simp only [record_store, record_entries, record_committed, record_batchSize] at hp
  simp only [flush] at h ⊢
  split_ifs at h ⊢ with h1 h2 h3 h4
  · simp [hp.1, hp.2.1, hp.2.2.1, hp.2.2.2]
  · simp [hp.1, hp.2.1, hp.2.2.1, hp.2.2.2]
  · simp
  · simp

lemma flush_none_spec (s : State) (h : (flush s).2 = none) :
    (flush s).1.entries = [] ∧
    (flush s).1.committed = s.committed ++ [s.entries.map toRow] ∧
    (flush s).1.events = s.events
      ++ [(Op.beginTx, true), (Op.prepareStmt insertSQL, true)]
      ++ (s.entries.map toRow).map (fun r => (Op.execRow r, true))
      ++ [(Op.commitTx, true)] ∧
    (flush s).1.store = s.store ∧ (flush s).1.batchSize = s.batchSize := by
  have hp := execAll_preserves (s.entries.map toRow)
      (record (record s Op.beginTx) (Op.prepareStmt insertSQL))
  simp only [record_store, record_entries, record_committed, record_batchSize] at hp
  simp only [flush] at h ⊢
  split_ifs at h ⊢ with h1 h2 h3 h4
  have ht := execAll_true (s.entries.map toRow)
      (record (record s Op.beginTx) (Op.prepareStmt insertSQL)) h3
  simp only [record_events, h1, h2] at ht
  refine ⟨rfl, ?_, ?_, ?_, ?_⟩
  · simp [hp.2.2.1]
  · simp [ht, h4, List.append_assoc]
  · simp [hp.1]
  · simp [hp.2.2.2]

lemma flush_alwaysOk (s : State) (h : s.store = alwaysOk) :
    (flush s).2 = none ∧
    (flush s).1.entries = [] ∧
    (flush s).1.committed = s.committed ++ [s.entries.map toRow] ∧
    (flush s).1.events = s.events
      ++ [(Op.beginTx, true), (Op.prepareStmt insertSQL, true)]
      ++ (s.entries.map toRow).map (fun r => (Op.execRow r, true))
      ++ [(Op.commitTx, true)] ∧
    (flush s).1.store = s.store ∧ (flush s).1.batchSize = s.batchSize := by
  have h1 : opOk s = true := opOk_alwaysOk s h
  have h2 : opOk (record s Op.beginTx) = true := opOk_alwaysOk _ (by simp [h])
  have hE := execAll_alwaysOk (s.entries.map toRow)
      (record (record s Op.beginTx) (Op.prepareStmt insertSQL)) (by simp [h])
  have hstore := (execAll_preserves (s.entries.map toRow)
      (record (record s Op.beginTx) (Op.prepareStmt insertSQL))).1
  have h4 : opOk (execAll (record (record s Op.beginTx) (Op.prepareStmt insertSQL))
      (s.entries.map toRow)).1 = true := by
    apply opOk_alwaysOk
    simp only [hstore, record_store]
    exact h
  have hn : (flush s).2 = none := by
    simp [flush, h1, h2, hE.1, h4]
  exact ⟨hn, flush_none_spec s hn⟩

/-! ## Reference chunking facts -/

lemma chunkRun_join {α : Type} (B : Nat) : ∀ (as buf : List α),
    ((chunkRun B buf as).1).flatten ++ (chunkRun B buf as).2 = buf ++ as
  | [], buf => by simp [chunkRun]
  | a :: rest, buf => by
    by_cases h : B ≤ buf.length + 1
    · have ih := chunkRun_join B rest ([] : List α)
      simp only [List.nil_append] at ih
      simp only [chunkRun, if_pos h, List.flatten_cons]
      rw [List.append_assoc, ih]
      simp
    · have ih := chunkRun_join B rest (buf ++ [a])
      simp only [chunkRun, if_neg h]
      rw [ih]
      simp
 
lemma chunkRun_count {α : Type} (B : Nat) (hB : 0 < B) : ∀ (as buf : List α),
    buf.length < B →
    (∀ c ∈ (chunkRun B buf as).1, c.length = B) ∧
    ((chunkRun B buf as).2).length = (buf.length + as.length) % B ∧
    ((chunkRun B buf as).1).length = (buf.length + as.length) / B
  | [], buf => by
    intro h
    refine ⟨by simp [chunkRun], ?_, ?_⟩
    · simp [chunkRun, Nat.mod_eq_of_lt h]
    · simp [chunkRun, Nat.div_eq_of_lt h]
  | a :: rest, buf => by
    intro h
    by_cases hc : B ≤ buf.length + 1
    · have hEq : buf.length + 1 = B := Nat.le_antisymm h hc
      have ih := chunkRun_count B hB rest ([] : List α) (by simpa using hB)
      simp only [List.length_nil, Nat.zero_add] at ih
      have htot : buf.length + (rest.length + 1) = rest.length + B := by omega
      refine ⟨?_, ?_, ?_⟩
      · intro c hcmem
        simp only [chunkRun, if_pos hc] at hcmem
        rcases List.mem_cons.mp hcmem with hcase | hcase
        · rw [hcase]; simp; omega
        · exact ih.1 c hcase
      · simp only [chunkRun, if_pos hc, List.length_cons]
        rw [ih.2.1, htot, Nat.add_mod_right]
      · simp only [chunkRun, if_pos hc, List.length_cons]
        rw [ih.2.2, htot, Nat.add_div_right _ hB]
    · have h' : buf.length + 1 < B := by omega
      have ih := chunkRun_count B hB rest (buf ++ [a]) (by simpa using h')
      simp only [List.length_append, List.length_singleton] at ih
      refine ⟨?_, ?_, ?_⟩
      · intro c hcmem
        simp only [chunkRun, if_neg hc] at hcmem
        exact ih.1 c hcmem
      · simp only [chunkRun, if_neg hc, List.length_cons]
        rw [ih.2.1]
        congr 1
        omega
      · simp only [chunkRun, if_neg hc, List.length_cons]
        rw [ih.2.2]
        congr 1
        omega

/-! ## Reliable runs of Fire -/

lemma runFires_spec (B : Nat) (hB : 0 < B) : ∀ (es : List Entry) (s : State),
    s.store = alwaysOk → s.batchSize = (B : Int) → s.entries.length < B →
    (runFires s es).store = alwaysOk ∧
    (runFires s es).batchSize = (B : Int) ∧
    (runFires s es).entries = (chunkRun B s.entries es).2 ∧
    (runFires s es).committed
      = s.committed ++ ((chunkRun B s.entries es).1).map (fun c => c.map toRow)
  | [], s => by
    intro h1 h2 h3
    simp [runFires, chunkRun, h1, h2]
  | e :: rest, s => by
    intro h1 h2 h3
    by_cases hc : B ≤ s.entries.length + 1
    · have hcond : s.batchSize ≤ (s.entries.length : Int) + 1 := by
        rw [h2]
        exact_mod_cast hc
      have hfl := flush_alwaysOk { s with entries := s.entries ++ [e] } h1
      have hlen : (flush { s with entries := s.entries ++ [e] }).1.entries.length < B := by
        rw [hfl.2.1]
        simpa using hB
      have ih := runFires_spec B hB rest (flush { s with entries := s.entries ++ [e] }).1
          (by rw [hfl.2.2.2.2.1]; exact h1) (by rw [hfl.2.2.2.2.2]; exact h2) hlen
      have hstep : runFires s (e :: rest)
          = runFires (flush { s with entries := s.entries ++ [e] }).1 rest := by
        simp [runFires, Fire, hcond]
      rw [hfl.2.1] at ih
      refine ⟨by rw [hstep]; exact ih.1, by rw [hstep]; exact ih.2.1, ?_, ?_⟩
      · rw [hstep, ih.2.2.1]
        simp [chunkRun, hc]
      · rw [hstep, ih.2.2.2, hfl.2.2.1]
        simp [chunkRun, hc]
    · have hcond : ¬ s.batchSize ≤ (s.entries.length : Int) + 1 := by
        rw [h2]
        intro hle
        exact hc (by exact_mod_cast hle)
      have hstep : runFires s (e :: rest)
          = runFires ({ s with entries := s.entries ++ [e] } : State) rest := by
        simp [runFires, Fire, hcond]
      have ih := runFires_spec B hB rest ({ s with entries := s.entries ++ [e] } : State)
          h1 h2 (by simp; omega)
      refine ⟨by rw [hstep]; exact ih.1, by rw [hstep]; exact ih.2.1, ?_, ?_⟩
      · rw [hstep, ih.2.2.1]
        simp [chunkRun, hc]
      · rw [hstep, ih.2.2.2]
        simp [chunkRun, hc]

/-! ## Arithmetic and list helpers -/

lemma ceil_div_split (B N : Nat) (hB : 0 < B) :
    (N + B - 1) / B = N / B + (if N % B = 0 then 0 else 1) := by
  have hN : N = B * (N / B) + N % B := (Nat.div_add_mod N B).symm
  have hr : N % B < B := Nat.mod_lt _ hB
  obtain ⟨q, r, hq, hrw⟩ : ∃ q r, N / B = q ∧ N % B = r := ⟨N / B, N % B, rfl, rfl⟩
  rw [hq, hrw] at hN
  rw [hrw] at hr
  rw [hq, hrw]
  by_cases h0 : r = 0
  · rw [if_pos h0]
    rw [h0, Nat.add_zero] at hN
    rw [hN]
    have h1 : B * q + B - 1 = B * q + (B - 1) := by omega
    rw [h1, Nat.mul_add_div hB, Nat.div_eq_of_lt (by omega)]
  · rw [if_neg h0]
    rw [hN]
    have h1 : B * q + r + B - 1 = B * q + (B + (r - 1)) := by omega
    have h2 : (B + (r - 1)) / B = 1 := by
      rw [Nat.add_comm, Nat.add_div_right _ hB, Nat.div_eq_of_lt (by omega)]
    rw [h1, Nat.mul_add_div hB, h2]

lemma filter_nonempty_id (L : List (List Row)) (h : ∀ b ∈ L, b ≠ []) :
    L.filter (fun b => !b.isEmpty) = L := by
  rw [List.filter_eq_self]
  intro a ha
  have := h a ha
  simp only [Bool.not_eq_true', Bool.not_eq_false]
  simpa [List.isEmpty_iff] using this

lemma flatten_map_map (L : List (List Entry)) :
    (L.map (fun c => c.map toRow)).flatten = L.flatten.map toRow :=
  (List.map_flatten ..).symm

/-! ## Runs with a nonpositive batch size -/

lemma run_nonpos (b : Int) (hb : b ≤ 0) : ∀ (es : List Entry) (s : State),
    s.store = alwaysOk → s.batchSize = b → s.entries = [] →
    (runFires s es).entries = [] ∧
    (runFires s es).committed = s.committed ++ es.map (fun e => [toRow e])
  | [], s => by
    intro h1 h2 h3
    simp [runFires, h3]
  | e :: rest, s => by
    intro h1 h2 h3
    have hcond : s.batchSize ≤ (s.entries.length : Int) + 1 := by
      rw [h2, h3]
      simp
      omega
    have hfl := flush_alwaysOk { s with entries := s.entries ++ [e] } h1
    have hstep : runFires s (e :: rest)
        = runFires (flush { s with entries := s.entries ++ [e] }).1 rest := by
      simp [runFires, Fire, hcond]
    have ih := run_nonpos b hb rest (flush { s with entries := s.entries ++ [e] }).1
        (by rw [hfl.2.2.2.2.1]; exact h1) (by rw [hfl.2.2.2.2.2]; exact h2) hfl.2.1
    refine ⟨by rw [hstep]; exact ih.1, ?_⟩
    rw [hstep, ih.2, hfl.2.2.1]
    simp [h3]

/-! ## Claim theorems -/

/-- C2: if a flush triggered by `Fire` fails at transaction begin, at any
individual insert, or at commit, `Fire` returns exactly the pair `flush`
produced (same error, same state), and the buffer is left holding exactly
the entries it had at the point of failure — the old buffer plus the
just-appended entry — with nothing cleared and nothing committed. -/
theorem fire_error_propagation (s : State) (e : Entry) (err : Err)
    (h : (Fire s e).2 = some err) :
    Fire s e = flush { s with entries := s.entries ++ [e] } ∧
    (flush { s with entries := s.entries ++ [e] }).2 = some err ∧
    (Fire s e).1.entries = s.entries ++ [e] ∧
    (Fire s e).1.committed = s.committed := by
  by_cases hc : s.batchSize ≤ (s.entries.length : Int) + 1
  · have hfe : Fire s e = flush { s with entries := s.entries ++ [e] } := by
      simp [Fire, hc]
    rw [hfe] at h
    have hpres := flush_err_preserves { s with entries := s.entries ++ [e] } err h
    refine ⟨hfe, h, ?_, ?_⟩
    · rw [hfe, hpres.1]
    · rw [hfe, hpres.2.1]
  · exfalso
    simp [Fire, hc] at h

/-- C2 witness: with batch size 1 over a store that fails every operation,
firing one entry triggers a flush that fails at transaction begin; `Fire`
returns that very error and the entry stays buffered. -/
theorem fire_error_propagation_concrete :
    (Fire (initState neverOk 1) e0).2 = some Err.beginErr ∧
    Fire (initState neverOk 1) e0
      = flush { initState neverOk 1 with entries := (initState neverOk 1).entries ++ [e0] } ∧
    (Fire (initState neverOk 1) e0).1.entries = (initState neverOk 1).entries ++ [e0] ∧
    (Fire (initState neverOk 1) e0).1.committed = (initState neverOk 1).committed := by
  have h : (Fire (initState neverOk 1) e0).2 = some Err.beginErr := rfl
  have hmain := fire_error_propagation (initState neverOk 1) e0 Err.beginErr h
  exact ⟨h, hmain.1, hmain.2.2.1, hmain.2.2.2⟩

/-- C3 counterexample: for an unreachable store or failed handshake
(`db.Ping` fails), `NewClickHouseHook` does not return a `ConnectionError`
to its caller: it terminates the process via `log.Fatal`/`log.Fatalf`.
Concretely, with a ping failure the constructor's outcome is `fatalExit`,
not an error return. -/
theorem construct_ping_failure_cex :
    NewClickHouseHook ConnOutcome.pingFailed alwaysOk 5 = ConstructResult.fatalExit ∧
    NewClickHouseHook ConnOutcome.pingFailed alwaysOk 5 ≠ ConstructResult.errReturn :=
  ⟨rfl, fun h => nomatch h⟩

/-- C3 amended: on an unreachable store or failed handshake (a `Ping`
failure) the constructor terminates the process via `log.Fatal` with a
diagnostic instead of returning an error; no sink is ever created on that
path.  Only an `sql.Open` error is returned to the caller. -/
theorem construct_failure_behavior (store : Store) (b : Int) :
    NewClickHouseHook ConnOutcome.pingFailed store b = ConstructResult.fatalExit ∧
    NewClickHouseHook ConnOutcome.openFailed store b = ConstructResult.errReturn ∧
    ∀ s, NewClickHouseHook ConnOutcome.pingFailed store b ≠ ConstructResult.hook s :=
  ⟨rfl, rfl, fun _ h => nomatch h⟩

/-- C4: calling `flush` on an empty buffer (over a store whose operations
succeed) succeeds, issues zero row inserts — the only operations issued are
the transaction begin, the statement prepare and the commit, with no
`execRow` among them — leaves the buffer empty, and delivers no batch of
records to the store. -/
theorem flush_empty_noop (s : State) (h1 : s.store = alwaysOk) (h2 : s.entries = []) :
    (flush s).2 = none ∧
    (flush s).1.entries = [] ∧
    receivedBatches ((flush s).1) = receivedBatches s ∧
    (flush s).1.events = s.events
      ++ [(Op.beginTx, true), (Op.prepareStmt insertSQL, true), (Op.commitTx, true)] := by
  have hfl := flush_alwaysOk s h1
  refine ⟨hfl.1, hfl.2.1, ?_, ?_⟩
  · rw [receivedBatches, receivedBatches, hfl.2.2.1, h2]
    simp [List.filter_append]
  · rw [hfl.2.2.2.1, h2]
    simp

/-- C4 witness: flushing a freshly constructed (empty) hook with batch size 5
over the reliable store succeeds with zero row inserts. -/
theorem flush_empty_noop_concrete :
    (flush (initState alwaysOk 5)).2 = none ∧
    (flush (initState alwaysOk 5)).1.entries = [] ∧
    receivedBatches ((flush (initState alwaysOk 5)).1)
      = receivedBatches (initState alwaysOk 5) ∧
    (flush (initState alwaysOk 5)).1.events = (initState alwaysOk 5).events
      ++ [(Op.beginTx, true), (Op.prepareStmt insertSQL, true), (Op.commitTx, true)] :=
  flush_empty_noop (initState alwaysOk 5) rfl rfl

/-- C7: the prepared statement is a parameterized insert of exactly the three
columns event time, level text, message text, in that order, into the single
fixed relation `tiered_logs`; on a successful `flush` the trace gains one
`execRow` per buffered record in buffer (FIFO) order followed by the commit,
the committed batches gain exactly that batch, and the buffer is cleared;
on any failure — including a failed commit — the buffer is left untouched,
so a caller observes the cleared buffer only after the commit succeeded. -/
theorem flush_insert_contract (s : State) :
    insertSQL = "INSERT INTO tiered_logs (event_time, level, message) VALUES (?, ?, ?)" ∧
    ((flush s).2 = none →
      (flush s).1.entries = [] ∧
      (flush s).1.committed = s.committed ++ [s.entries.map toRow] ∧
      (flush s).1.events = s.events
        ++ [(Op.beginTx, true), (Op.prepareStmt insertSQL, true)]
        ++ (s.entries.map toRow).map (fun r => (Op.execRow r, true))
        ++ [(Op.commitTx, true)]) ∧
    ((flush s).2 ≠ none → (flush s).1.entries = s.entries) := by
  refine ⟨rfl, ?_, ?_⟩
  · intro h
    have hs := flush_none_spec s h
    exact ⟨hs.1, hs.2.1, hs.2.2.1⟩
  · intro h
    cases hfe : (flush s).2 with
    | none => exact absurd hfe h
    | some err => exact (flush_err_preserves s err hfe).1

/-- C7 witness: a one-entry flush over the reliable store succeeds with the
begin/prepare/exec/commit trace and clears the buffer; a one-entry flush over
the always-failing store fails and leaves the buffer untouched. -/
theorem flush_insert_contract_concrete :
    ((flush sOneEntry).1.entries = [] ∧
     (flush sOneEntry).1.committed = sOneEntry.committed ++ [sOneEntry.entries.map toRow] ∧
     (flush sOneEntry).1.events = sOneEntry.events
       ++ [(Op.beginTx, true), (Op.prepareStmt insertSQL, true)]
       ++ (sOneEntry.entries.map toRow).map (fun r => (Op.execRow r, true))
       ++ [(Op.commitTx, true)]) ∧
    (flush sBeginFail).1.entries = sBeginFail.entries := by
  have h1 : (flush sOneEntry).2 = none := rfl
  have h2 : (flush sBeginFail).2 = some Err.beginErr := rfl
  exact ⟨(flush_insert_contract sOneEntry).2.1 h1,
    (flush_insert_contract sBeginFail).2.2 (by rw [h2]; exact fun hx => nomatch hx)⟩

/-- C10: whenever `flush` returns an error — at begin, prepare, any insert,
or commit — the failing run issued no rollback (every newly traced operation
is something other than `rollbackTx`), nothing was committed (the committed
batches are unchanged), and if the failure came after a successful
transaction begin, the trace shows the transaction was opened. -/
theorem flush_error_no_rollback (s : State) (err : Err) (h : (flush s).2 = some err) :
    (flush s).1.committed = s.committed ∧
    (∃ new, (flush s).1.events = s.events ++ new ∧
      ∀ ev ∈ new, ev.1 ≠ Op.rollbackTx) ∧
    (err ≠ Err.beginErr → (Op.beginTx, true) ∈ (flush s).1.events) := by
  obtain ⟨new, hnew, hshape⟩ := execAll_events (s.entries.map toRow)
      (record (record s Op.beginTx) (Op.prepareStmt insertSQL))
  simp only [record_events] at hnew
  have hnoroll : ∀ ev ∈ new, ev.1 ≠ Op.rollbackTx := by
    intro ev hev
    obtain ⟨r, hr⟩ := hshape ev hev
    rw [hr]
    simp
  refine ⟨(flush_err_preserves s err h).2.1, ?_, ?_⟩
  · simp only [flush] at h ⊢
    split_ifs at h ⊢ with h1 h2 h3 h4
    · refine ⟨[(Op.beginTx, opOk s), (Op.prepareStmt insertSQL, opOk (record s Op.beginTx))]
          ++ new ++ [(Op.commitTx, opOk (execAll (record (record s Op.beginTx)
              (Op.prepareStmt insertSQL)) (s.entries.map toRow)).1)], ?_, ?_⟩
      · simp only [record_events, hnew]
        simp [List.append_assoc]
      · intro ev hev
        simp only [List.mem_append, List.mem_cons, List.not_mem_nil, or_false] at hev
        rcases hev with ((hev | hev) | hev) | hev
        · rw [hev]; simp
        · rw [hev]; simp
        · exact hnoroll ev hev
        · rw [hev]; simp
    · refine ⟨[(Op.beginTx, opOk s), (Op.prepareStmt insertSQL, opOk (record s Op.beginTx))]
          ++ new, ?_, ?_⟩
      · rw [hnew]
        simp [List.append_assoc]
      · intro ev hev
        simp only [List.mem_append, List.mem_cons, List.not_mem_nil, or_false] at hev
        rcases hev with (hev | hev) | hev
        · rw [hev]; simp
        · rw [hev]; simp
        · exact hnoroll ev hev
    · refine ⟨[(Op.beginTx, opOk s), (Op.prepareStmt insertSQL, opOk (record s Op.beginTx))], ?_, ?_⟩
      · simp [List.append_assoc]
      · intro ev hev
        simp only [List.mem_cons, List.not_mem_nil, or_false] at hev
        rcases hev with hev | hev
        · rw [hev]; simp
        · rw [hev]; simp
    · refine ⟨[(Op.beginTx, opOk s)], by simp, ?_⟩
      intro ev hev
      rcases List.mem_singleton.mp hev with hev
      rw [hev]; simp
  · intro hne
    simp only [flush] at h ⊢
    split_ifs at h ⊢ with h1 h2 h3 h4
    · simp only [record_events, hnew]
      simp [h1]
    · rw [hnew]
      simp [h1]
    · simp [h1]
    · have hbe : Err.beginErr = err := by simpa using h
      exact absurd hbe.symm hne

/-- C10 witness: a one-entry flush over a store that fails exactly the
commit returns `commitErr`; the run's new events contain no rollback, the
committed batches are unchanged, and the trace shows the opened transaction. -/
theorem flush_error_no_rollback_concrete :
    (flush sCommitFail).2 = some Err.commitErr ∧
    (flush sCommitFail).1.committed = sCommitFail.committed ∧
    (∃ new, (flush sCommitFail).1.events = sCommitFail.events ++ new ∧
      ∀ ev ∈ new, ev.1 ≠ Op.rollbackTx) ∧
    (Err.commitErr ≠ Err.beginErr → (Op.beginTx, true) ∈ (flush sCommitFail).1.events) := by
  have h : (flush sCommitFail).2 = some Err.commitErr := rfl
  exact ⟨h, flush_error_no_rollback sCommitFail Err.commitErr h⟩

/-- C1: over a reliable store with positive batch size B, a sequence of N
`Fire` calls delivers exactly N / B batches to the store; a final explicit
flush delivers the non-empty remainder as one more batch, for a total of
ceil(N/B) = (N + B - 1) / B batches; every delivered batch holds at most B
records; and the concatenation of the delivered batches in flush order is
exactly the appended records, as rows, in append order. -/
theorem batch_partition (B : Nat) (hB : 0 < B) (es : List Entry) :
    (receivedBatches (runFires (initState alwaysOk (B : Int)) es)).length
      = es.length / B ∧
    (receivedBatches ((flush (runFires (initState alwaysOk (B : Int)) es)).1)).length
      = (es.length + B - 1) / B ∧
    (∀ b ∈ receivedBatches ((flush (runFires (initState alwaysOk (B : Int)) es)).1),
      b.length ≤ B) ∧
    (receivedBatches ((flush (runFires (initState alwaysOk (B : Int)) es)).1)).flatten
      = es.map toRow ∧
    ((flush (runFires (initState alwaysOk (B : Int)) es)).1).entries = [] := by
  have hrun := runFires_spec B hB es (initState alwaysOk (B : Int)) rfl rfl
      (by simpa using hB)
  have hcnt := chunkRun_count B hB es ([] : List Entry) (by simpa using hB)
  simp only [List.length_nil, Nat.zero_add] at hcnt
  simp only [initState_entries, initState_committed, List.nil_append] at hrun
  have hjoin := chunkRun_join B es ([] : List Entry)
  simp only [List.nil_append] at hjoin
  set sN := runFires (initState alwaysOk (B : Int)) es with hsN
  set chunks := (chunkRun B ([] : List Entry) es).1 with hchunks
  set rem := (chunkRun B ([] : List Entry) es).2 with hrem
  have hchunkrows : ∀ b ∈ chunks.map (fun c => c.map toRow), b ≠ [] := by
    intro b hb
    obtain ⟨c, hc, hcb⟩ := List.mem_map.mp hb
    have := hcnt.1 c hc
    rw [← hcb]
    intro hnil
    have hcn : c = [] := List.map_eq_nil_iff.mp hnil
    rw [hcn] at this
    simp at this
    omega
  have hfl := flush_alwaysOk sN hrun.1
  have hrecN : receivedBatches sN = chunks.map (fun c => c.map toRow) := by
    rw [receivedBatches, hrun.2.2.2]
    exact filter_nonempty_id _ hchunkrows
  have hrecF : receivedBatches ((flush sN).1)
      = chunks.map (fun c => c.map toRow)
        ++ (if rem = [] then [] else [rem.map toRow]) := by
    rw [receivedBatches, hfl.2.2.1, hrun.2.2.2, hrun.2.2.1, List.filter_append,
      filter_nonempty_id _ hchunkrows]
    by_cases hre : rem = []
    · rw [if_pos hre, hre]
      simp
    · rw [if_neg hre]
      have : ((rem.map toRow).isEmpty) = false := by
        simp [List.isEmpty_iff]
        exact hre
      simp [List.filter, this]
  refine ⟨?_, ?_, ?_, ?_, hfl.2.1⟩
  · rw [hrecN, List.length_map]
    exact hcnt.2.2
  · rw [hrecF, ceil_div_split B es.length hB]
    by_cases hre : rem = []
    · rw [if_pos hre]
      have hmod0 : es.length % B = 0 := by
        rw [← hcnt.2.1, hre]
        rfl
      rw [if_pos hmod0]
      simp [hcnt.2.2]
    · rw [if_neg hre]
      have hmodne : es.length % B ≠ 0 := by
        rw [← hcnt.2.1]
        intro hz
        exact hre (List.length_eq_zero.mp hz)
      rw [if_neg hmodne]
      simp [hcnt.2.2]
  · intro b hb
    rw [hrecF] at hb
    rcases List.mem_append.mp hb with hb | hb
    · obtain ⟨c, hc, hcb⟩ := List.mem_map.mp hb
      rw [← hcb, List.length_map, hcnt.1 c hc]
    · by_cases hre : rem = []
      · rw [if_pos hre] at hb
        simp at hb
      · rw [if_neg hre] at hb
        rcases List.mem_singleton.mp hb with hb
        rw [hb, List.length_map, hcnt.2.1]
        exact Nat.le_of_lt (Nat.mod_lt _ hB)
  · rw [hrecF]
    by_cases hre : rem = []
    · rw [if_pos hre, List.append_nil, flatten_map_map]
      rw [hre, List.append_nil] at hjoin
      rw [hjoin]
    · rw [if_neg hre]
      rw [List.flatten_append, flatten_map_map]
      simp only [List.flatten, List.append_nil]
      rw [← List.map_append, hjoin]

/-- C1 witness: batch size 2 over the reliable store with three appended
entries — the appends deliver one batch, the final flush a second, each of
at most 2 records, concatenating to the three rows in order. -/
theorem batch_partition_concrete :
    (receivedBatches (runFires (initState alwaysOk (2 : Int)) [e0, e1, e2])).length
      = [e0, e1, e2].length / 2 ∧
    (receivedBatches ((flush (runFires (initState alwaysOk (2 : Int)) [e0, e1, e2])).1)).length
      = ([e0, e1, e2].length + 2 - 1) / 2 ∧
    (∀ b ∈ receivedBatches ((flush (runFires (initState alwaysOk (2 : Int)) [e0, e1, e2])).1),
      b.length ≤ 2) ∧
    (receivedBatches ((flush (runFires (initState alwaysOk (2 : Int)) [e0, e1, e2])).1)).flatten
      = [e0, e1, e2].map toRow ∧
    ((flush (runFires (initState alwaysOk (2 : Int)) [e0, e1, e2])).1).entries = [] :=
  batch_partition 2 (by omega) [e0, e1, e2]

/-- C5: over a reliable store with positive batch size B, after every
sequence of `Fire` calls from a fresh hook the buffer holds fewer than B
records, and the momentary buffer formed by the next append — the instant
between the append and the flush it may trigger — never exceeds B records. -/
theorem buffer_length_invariant (B : Nat) (hB : 0 < B) (es : List Entry) (e : Entry) :
    (runFires (initState alwaysOk (B : Int)) es).entries.length < B ∧
    ((runFires (initState alwaysOk (B : Int)) es).entries ++ [e]).length ≤ B := by
  have hrun := runFires_spec B hB es (initState alwaysOk (B : Int)) rfl rfl
      (by simpa using hB)
  simp only [initState_entries] at hrun
  have hcnt := chunkRun_count B hB es ([] : List Entry) (by simpa using hB)
  simp only [List.length_nil, Nat.zero_add] at hcnt
  have hlt : (runFires (initState alwaysOk (B : Int)) es).entries.length < B := by
    rw [hrun.2.2.1, hcnt.2.1]
    exact Nat.mod_lt _ hB
  refine ⟨hlt, ?_⟩
  rw [List.length_append, List.length_singleton]
  omega

/-- C5 witness: batch size 3 over the reliable store with four fires — the
buffer afterwards holds one record (fewer than 3), and appending one more
would momentarily hold two (at most 3). -/
theorem buffer_length_invariant_concrete :
    (runFires (initState alwaysOk (3 : Int)) [e0, e1, e2, e0]).entries.length < 3 ∧
    ((runFires (initState alwaysOk (3 : Int)) [e0, e1, e2, e0]).entries ++ [e1]).length ≤ 3 :=
  buffer_length_invariant 3 (by omega) [e0, e1, e2, e0] e1

/-- C6 counterexample: the boundary claim fails for batch size B = 1, which
is positive.  Appending B + 1 = 2 records to a fresh hook over the reliable
store triggers two flushes of one record each and leaves the buffer empty,
not one flush of B records with one record left buffered. -/
theorem boundary_batch_one_cex :
    (runFires (initState alwaysOk (1 : Int)) [e0, e1]).committed
      = [[toRow e0], [toRow e1]] ∧
    (runFires (initState alwaysOk (1 : Int)) [e0, e1]).entries = [] ∧
    (runFires (initState alwaysOk (1 : Int)) [e0, e1]).committed.length ≠ 1 ∧
    (runFires (initState alwaysOk (1 : Int)) [e0, e1]).entries.length ≠ 1 := by
  refine ⟨rfl, rfl, ?_, ?_⟩
  · intro h
    rw [show (runFires (initState alwaysOk (1 : Int)) [e0, e1]).committed
        = [[toRow e0], [toRow e1]] from rfl] at h
    simp at h
  · intro h
    rw [show (runFires (initState alwaysOk (1 : Int)) [e0, e1]).entries = [] from rfl] at h
    simp at h

/-- C6 amended: over a reliable store, appending exactly B records (B
positive) to a fresh hook triggers exactly one flush carrying all B records
and leaves the buffer empty; and for B at least 2, appending B + 1 records
triggers exactly one flush of the first B records and leaves exactly the one
remaining record buffered.  (For B = 1 every append triggers its own flush,
so B + 1 appends give two flushes and an empty buffer.) -/
theorem boundary_behavior (B : Nat) (hB : 0 < B) (es1 es2 : List Entry)
    (h1 : es1.length = B) (h2 : es2.length = B + 1) :
    ((runFires (initState alwaysOk (B : Int)) es1).committed = [es1.map toRow] ∧
     (runFires (initState alwaysOk (B : Int)) es1).entries = []) ∧
    (2 ≤ B →
      (runFires (initState alwaysOk (B : Int)) es2).committed = [(es2.take B).map toRow] ∧
      (runFires (initState alwaysOk (B : Int)) es2).entries = es2.drop B ∧
      (es2.drop B).length = 1) := by
  constructor
  · have hrun := runFires_spec B hB es1 (initState alwaysOk (B : Int)) rfl rfl
        (by simpa using hB)
    simp only [initState_entries, initState_committed, List.nil_append] at hrun
    have hcnt := chunkRun_count B hB es1 ([] : List Entry) (by simpa using hB)
    simp only [List.length_nil, Nat.zero_add] at hcnt
    have hjoin := chunkRun_join B es1 ([] : List Entry)
    simp only [List.nil_append] at hjoin
    have hmod : es1.length % B = 0 := by
      rw [h1]
      exact Nat.mod_self B
    have hdiv : es1.length / B = 1 := by
      rw [h1]
      exact Nat.div_self hB
    have hremnil : (chunkRun B ([] : List Entry) es1).2 = [] := by
      apply List.length_eq_zero.mp
      rw [hcnt.2.1, hmod]
    obtain ⟨c, hc⟩ := List.length_eq_one.mp (by rw [hcnt.2.2, hdiv])
    have hce : c = es1 := by
      rw [hremnil, List.append_nil, hc] at hjoin
      simpa using hjoin
    refine ⟨?_, ?_⟩
    · rw [hrun.2.2.2, hc, hce]
      rfl
    · rw [hrun.2.2.1, hremnil]
  · intro hB2
    have hrun := runFires_spec B hB es2 (initState alwaysOk (B : Int)) rfl rfl
        (by simpa using hB)
    simp only [initState_entries, initState_committed, List.nil_append] at hrun
    have hcnt := chunkRun_count B hB es2 ([] : List Entry) (by simpa using hB)
    simp only [List.length_nil, Nat.zero_add] at hcnt
    have hjoin := chunkRun_join B es2 ([] : List Entry)
    simp only [List.nil_append] at hjoin
    have hmod : es2.length % B = 1 := by
      rw [h2, Nat.add_comm, Nat.add_mod_right, Nat.mod_eq_of_lt (by omega)]
    have hdiv : es2.length / B = 1 := by
      rw [h2, Nat.add_comm, Nat.add_div_right 1 hB, Nat.div_eq_of_lt (by omega)]
    obtain ⟨c, hc⟩ := List.length_eq_one.mp (by rw [hcnt.2.2, hdiv])
    have hclen : c.length = B := hcnt.1 c (by rw [hc]; exact List.mem_singleton_self c)
    have hcr : c ++ (chunkRun B ([] : List Entry) es2).2 = es2 := by
      rw [hc] at hjoin
      simpa using hjoin
    have htl : (es2.take B).length = B := by
      rw [List.length_take, h2]
      omega
    have hsplit := List.append_inj
        (hcr.trans (List.take_append_drop B es2).symm) (by rw [hclen, htl])
    refine ⟨?_, ?_, ?_⟩
    · rw [hrun.2.2.2, hc, hsplit.1]
      rfl
    · rw [hrun.2.2.1, hsplit.2]
    · rw [List.length_drop, h2]
      omega

/-- C6 amended witness: batch size 2 — appending two entries gives one flush
of both and an empty buffer; appending three gives one flush of the first two
and exactly one entry left buffered. -/
theorem boundary_behavior_concrete :
    ((runFires (initState alwaysOk (2 : Int)) [e0, e1]).committed
        = [[e0, e1].map toRow] ∧
     (runFires (initState alwaysOk (2 : Int)) [e0, e1]).entries = []) ∧
    (2 ≤ 2 →
      (runFires (initState alwaysOk (2 : Int)) [e0, e1, e2]).committed
        = [([e0, e1, e2].take 2).map toRow] ∧
      (runFires (initState alwaysOk (2 : Int)) [e0, e1, e2]).entries
        = [e0, e1, e2].drop 2 ∧
      ([e0, e1, e2].drop 2).length = 1) :=
  boundary_behavior 2 (by omega) [e0, e1] [e0, e1, e2] rfl rfl

/-- C9: `NewClickHouseHook` accepts any batch size without validation, and
for every batch size b at most 0, over a reliable store, each `Fire` call
immediately triggers a flush of the single just-appended record — the
length check uses greater-or-equal — so the buffer is always empty after
each call and the store receives one singleton batch per appended record. -/
theorem nonpositive_batchSize_flush (b : Int) (hb : b ≤ 0) (es : List Entry) :
    NewClickHouseHook ConnOutcome.connOk alwaysOk b
      = ConstructResult.hook (initState alwaysOk b) ∧
    (runFires (initState alwaysOk b) es).entries = [] ∧
    (runFires (initState alwaysOk b) es).committed = es.map (fun e => [toRow e]) := by
  have h := run_nonpos b hb es (initState alwaysOk b) rfl rfl rfl
  refine ⟨rfl, h.1, ?_⟩
  rw [h.2, initState_committed, List.nil_append]

/-- C9 witness: batch size -2 is accepted and two fires each flush their own
single record immediately. -/
theorem nonpositive_batchSize_flush_concrete :
    NewClickHouseHook ConnOutcome.connOk alwaysOk (-2)
      = ConstructResult.hook (initState alwaysOk (-2)) ∧
    (runFires (initState alwaysOk (-2)) [e0, e1]).entries = [] ∧
    (runFires (initState alwaysOk (-2)) [e0, e1]).committed
      = [e0, e1].map (fun e => [toRow e]) :=
  nonpositive_batchSize_flush (-2) (by omega) [e0, e1]

/-- C8 counterexample: the store connection is not released on every exit
path.  With a store that serves the first 16 operations and then fails, the
demo run delivers both in-loop batches, but the final explicit flush fails
at transaction begin; `main` then exits through `log.Fatalf`, i.e.
`os.Exit`, which skips the deferred `hook.db.Close()` — the handle is not
released on that exit path. -/
theorem close_skipped_on_fatal_cex :
    (flush (runFires (initState failFrom16 5) (mainEntries tenTimes))).2
      = some Err.beginErr ∧
    (mainRun ConnOutcome.connOk failFrom16 tenTimes).fatalExit = true ∧
    (mainRun ConnOutcome.connOk failFrom16 tenTimes).dbClosed = false :=
  ⟨rfl, rfl, rfl⟩

/-- C8 amended: `main` releases the connection handle exactly on the normal
exit path — the deferred `hook.db.Close()` runs if and only if the process
did not leave through `log.Fatal`/`log.Fatalf`.  On the fatal paths
(constructor failure or failed final flush) `os.Exit` skips the deferred
close, so the handle is released only by process termination. -/
theorem close_iff_normal_exit (conn : ConnOutcome) (store : Store) (times : List Int) :
    (mainRun conn store times).dbClosed = !(mainRun conn store times).fatalExit := by
  cases conn with
  | openFailed => rfl
  | pingFailed => rfl
  | connOk =>
    simp only [mainRun, NewClickHouseHook]
    cases (flush (runFires (initState store 5) (mainEntries times))).2 with
    | none => rfl
    | some err => rfl
